import Mathlib

/-
Verification model of the copy-on-write playlist container in
src/playlist.h (template class cxx::playlist over a track type T and a
per-play parameter type P).

Modelling conventions.
The C++ interior object playlistData stores
  - play_queue : std::list<playNode>, and
  - tracks : std::map<T, std::list<p_queue_iter>>.
List nodes are stable heap cells, so each play node is modelled with a
unique numeric id (its allocation address); an iterator to a play node
is modelled by that id, and the occurrence lists of the map store node
ids.  The map itself is modelled as a key-ordered association list; a
map iterator is modelled by its key, which identifies the map node.
The handle class playlist stores a shared_ptr to a playlistData plus a
bool shareable_ whose member initializer is false.  Shared ownership is
modelled by a system state Sys holding a heap (list of interiors,
indexed by allocation order) together with the list of live handles;
the field data_ of a handle is an optional heap index (none models a
null shared_ptr, the state a moved-from shared_ptr is left in), and
use_count of an interior is the number of handles referencing it.
Erasing a list or map element through an iterator unlinks the node the
iterator designates, hence in the model an erasure performed through an
iterator takes effect in the interior that owns the designated node,
which after a detach inside ensure_unique is the old, still shared
interior and not the fresh copy.  Exceptions are modelled by Except;
a throwing mutator returns the post-unwind state together with the
error, and dereferencing a null shared_ptr is reported as the fault
nullDeref.  Failure of a user-supplied copy or of an allocation inside
push_back is injected through an explicit FailPoint argument naming the
step of the call that fails.
-/

namespace Pleylist

/-- Error kinds surfaced to callers: std::out_of_range from front and
pop_front on an empty queue, std::invalid_argument from remove on an
unknown track, a fault from dereferencing a null handle pointer, and a
propagated failure of a user-supplied T or P operation. -/
inductive Err where
  | outOfRange
  | invalidArgument
  | nullDeref
  | userFailure
deriving DecidableEq

/-- Model of struct playNode: id models the address of the queue node,
track models track_nod_ptr (the key of the designated map node), params
is the owned P value.  The field self_ptr of the source is the position
of id inside the occurrence list of the track entry and is recovered
from id itself, since ids are unique. -/
structure playNode (T P : Type) where
  id : Nat
  track : T
  params : P
deriving DecidableEq

/-- Model of struct playlistData: the play queue, the key-ordered track
map with occurrence lists of node ids, and the next fresh node id. -/
structure playlistData (T P : Type) where
  play_queue : List (playNode T P)
  tracks : List (T × List Nat)
  nextId : Nat
deriving DecidableEq

variable {T P : Type}

/-- Model of tracks.emplace(track, empty list): walk the key-ordered
association list; insert the key with an empty occurrence list at its
ordered position when absent.  Returns the new list and the bool
added. -/
def emplace [LinearOrder T] (ts : List (T × List Nat)) (k : T) :
    List (T × List Nat) × Bool :=
  match ts with
  | [] => ([(k, [])], true)
  | e :: rest =>
    if k < e.1 then ((k, []) :: e :: rest, true)
    else if e.1 < k then
      let r := emplace rest k
      (e :: r.1, r.2)
    else (e :: rest, false)

/-- Model of tracks.find(k): the occurrence list stored at key k, none
when the key is absent. -/
def findTrack [LinearOrder T] (ts : List (T × List Nat)) (k : T) :
    Option (List Nat) :=
  match ts with
  | [] => none
  | e :: rest => if e.1 = k then some e.2 else findTrack rest k

/-- Model of tracks.erase(it) at the map node with key k: drop the
first entry carrying that key. -/
def eraseTrack [LinearOrder T] (ts : List (T × List Nat)) (k : T) :
    List (T × List Nat) :=
  match ts with
  | [] => []
  | e :: rest => if e.1 = k then rest else e :: eraseTrack rest k

/-- Replace the occurrence list stored at key k. -/
def setTrack [LinearOrder T] (ts : List (T × List Nat)) (k : T)
    (v : List Nat) : List (T × List Nat) :=
  ts.map (fun e => if e.1 = k then (e.1, v) else e)

/-- Model of map_it->second.insert(end, queue_it): append the node id
at the end of the occurrence list stored at key k. -/
def appendOcc [LinearOrder T] (ts : List (T × List Nat)) (k : T)
    (nid : Nat) : List (T × List Nat) :=
  ts.map (fun e => if e.1 = k then (e.1, e.2 ++ [nid]) else e)

/-- The empty interior built by playlistData(). -/
def emptyData : playlistData T P := ⟨[], [], 0⟩

/-- Model of playlistData::push_back on the success path: emplace the
track entry, append a fresh play node to the queue, then append the
node id to the occurrence list of the entry. -/
def playlistData.push_back [LinearOrder T] (d : playlistData T P)
    (t : T) (p : P) : playlistData T P :=
  let ts1 := (emplace d.tracks t).1
  { play_queue := d.play_queue ++ [⟨d.nextId, t, p⟩]
  , tracks := appendOcc ts1 t d.nextId
  , nextId := d.nextId + 1 }

/-- Names the step of a push_back call made to fail: the map emplace,
the queue append (this includes the copy of P into the new node), the
occurrence-list insert, the copy of the k-th play during the deep copy
performed by a detach, or no failure at all. -/
inductive FailPoint where
  | emplaceFail
  | queueAppendFail
  | occInsertFail
  | detachFail (k : Nat)
  | noFail
deriving DecidableEq

/-- Model of playlistData::push_back with an injected failure: the
error value carries the state left behind by the rollback code of the
source (erase the freshly emplaced entry after a failed queue append;
pop the appended node and erase the freshly emplaced entry after a
failed occurrence insert). -/
def playlistData.push_back_f [LinearOrder T] (d : playlistData T P)
    (t : T) (p : P) :
    FailPoint → Except (playlistData T P) (playlistData T P)
  | .emplaceFail => .error d
  | .queueAppendFail =>
    let em := emplace d.tracks t
    .error { d with tracks := if em.2 then eraseTrack em.1 t else em.1 }
  | .occInsertFail =>
    let em := emplace d.tracks t
    .error { play_queue :=
               (d.play_queue ++ [(⟨d.nextId, t, p⟩ : playNode T P)]).dropLast
           , tracks := if em.2 then eraseTrack em.1 t else em.1
           , nextId := d.nextId }
  | .detachFail _ => .ok (d.push_back t p)
  | .noFail => .ok (d.push_back t p)

/-- Model of playlistData::pop_front: out_of_range on an empty queue;
otherwise erase the front node from the occurrence list of its track,
drop the track entry when that list becomes empty, and pop the node. -/
def playlistData.pop_front [LinearOrder T] (d : playlistData T P) :
    Except Err (playlistData T P) :=
  match d.play_queue with
  | [] => .error .outOfRange
  | node :: rest =>
    let occ := (findTrack d.tracks node.track).getD []
    let occ2 := occ.erase node.id
    let ts2 := if occ2.isEmpty then eraseTrack d.tracks node.track
               else setTrack d.tracks node.track occ2
    .ok { play_queue := rest, tracks := ts2, nextId := d.nextId }

/-- Interior effect of the erasure loop of playlist::remove on the
interior owning the iterators: erase every queue node whose id lies in
the occurrence list occ read at lookup time, then erase the map entry
of the key. -/
def playlistData.removeAll [LinearOrder T] (d : playlistData T P)
    (occ : List Nat) (k : T) : playlistData T P :=
  { play_queue := d.play_queue.filter (fun n => !(occ.contains n.id))
  , tracks := eraseTrack d.tracks k
  , nextId := d.nextId }

/-- Model of the playlistData copy constructor: rebuild the interior
from an empty one by iterating the source queue front to back and
calling push_back with the track and params of each play, which
regenerates every cross pointer inside the fresh interior. -/
def playlistData.deepCopy [LinearOrder T] (d : playlistData T P) :
    playlistData T P :=
  d.play_queue.foldl (fun acc n => acc.push_back n.track n.params)
    emptyData

/-- The playlistData copy constructor with an injected failure: the
copy of the k-th play throws, the partially built interior is
discarded by stack unwinding and nothing is produced. -/
def playlistData.deepCopy_f [LinearOrder T] (d : playlistData T P) :
    FailPoint → Option (playlistData T P)
  | .detachFail k =>
    if k < d.play_queue.length then none else some d.deepCopy
  | .emplaceFail => some d.deepCopy
  | .queueAppendFail => some d.deepCopy
  | .occInsertFail => some d.deepCopy
  | .noFail => some d.deepCopy

/-- Overwrite the params of the play node with the given id (the
effect of an assignment through the reference returned by the
non-const params accessor). -/
def writeParams (d : playlistData T P) (nid : Nat) (v : P) :
    playlistData T P :=
  { d with play_queue := (d.play_queue.map
      (fun n => if n.id = nid then { n with params := v } else n)) }

/-- The play-iterator view of an interior: the pairs yielded by play
when walking play_begin to play_end. -/
def playView (d : playlistData T P) : List (T × P) :=
  d.play_queue.map (fun n => (n.track, n.params))

/-- The sorted-iterator view of an interior: the pairs yielded by pay
when walking sorted_begin to sorted_end (key and occurrence count). -/
def sortedView (d : playlistData T P) : List (T × Nat) :=
  d.tracks.map (fun e => (e.1, e.2.length))

/-- Model of the handle class playlist: data_ is the shared_ptr to the
interior (none models a null pointer), and shareable_ is the sharing
flag, whose member initializer in the source is false. -/
structure playlist where
  data_ : Option Nat
  shareable_ : Bool
deriving DecidableEq

/-- A system state: the heap of interiors in allocation order together
with the live handles in construction order. -/
structure Sys (T P : Type) where
  heap : List (playlistData T P)
  handles : List playlist
deriving DecidableEq

/-- The system with no interiors and no handles. -/
def Sys.empty : Sys T P := ⟨[], []⟩

/-- The handle stored at index i. -/
def Sys.handleAt (s : Sys T P) (i : Nat) : Option playlist :=
  s.handles[i]?

/-- The interior stored at heap index r. -/
def Sys.dataAt (s : Sys T P) (r : Nat) : Option (playlistData T P) :=
  s.heap[r]?

/-- The interior owned by handle i, none when the handle is absent or
its pointer is null. -/
def Sys.handleData (s : Sys T P) (i : Nat) : Option (playlistData T P) :=
  match s.handleAt i with
  | some ⟨some r, _⟩ => s.dataAt r
  | _ => none

/-- use_count of the interior at heap index r: the number of handles
whose shared_ptr references it. -/
def Sys.useCount (s : Sys T P) (r : Nat) : Nat :=
  (s.handles.filter (fun h => h.data_ = some r)).length

/-- The observable views of handle i: its play view and its sorted
view (size is the length of the play view). -/
def Sys.viewAt (s : Sys T P) (i : Nat) :
    Option (List (T × P) × List (T × Nat)) :=
  (s.handleData i).map (fun d => (playView d, sortedView d))

/-- Result of an operation on a system: ok with the new state, or an
error kind paired with the state left behind after unwinding. -/
abbrev Res (T P : Type) := Except (Err × Sys T P) (Sys T P)

/-- The state a run left behind, whether it returned or threw. -/
def resState : Res T P → Sys T P
  | .ok s => s
  | .error es => es.2

/-- Whether a run returned normally. -/
def resOk : Res T P → Bool
  | .ok _ => true
  | .error _ => false

/-- Model of playlist::ensure_unique with extra counting the live
shared_ptr temporaries aliasing data_ at the call (the saved ptr local
of playlist::push_back): when use_count exceeds one, allocate a deep
copy of the interior and repoint the handle at it.  A null data_ has
use_count zero, so it is left untouched. -/
def Sys.ensure_unique [LinearOrder T] (s : Sys T P) (i : Nat)
    (extra : Nat) : Sys T P :=
  match s.handleAt i with
  | some ⟨some r, sh⟩ =>
    match s.dataAt r with
    | some d =>
      if s.useCount r + extra > 1 then
        { heap := s.heap ++ [d.deepCopy]
        , handles := s.handles.set i ⟨some s.heap.length, sh⟩ }
      else s
    | none => s
  | _ => s

/-- Model of the default constructor playlist(): allocate an empty
interior; shareable_ keeps its member-initializer value false. -/
def Sys.newPlaylist (s : Sys T P) : Sys T P :=
  { heap := s.heap ++ [emptyData]
  , handles := s.handles ++ [⟨some s.heap.length, false⟩] }

/-- Model of the copy constructor playlist(playlist const and): share
the interior of a shareable source, deep copy the interior of a
non-shareable one; the new handle is shareable. -/
def Sys.copyFrom [LinearOrder T] (s : Sys T P) (i : Nat) : Res T P :=
  match s.handleAt i with
  | some h =>
    if h.shareable_ then
      .ok { s with handles := s.handles ++ [⟨h.data_, true⟩] }
    else
      match h.data_ with
      | some r =>
        match s.dataAt r with
        | some d =>
          .ok { heap := s.heap ++ [d.deepCopy]
              , handles := s.handles ++ [⟨some s.heap.length, true⟩] }
        | none => .error (.nullDeref, s)
      | none => .error (.nullDeref, s)
  | none => .error (.nullDeref, s)

/-- Model of operator=(playlist other): the by-value parameter is
built by the copy constructor from handle j (so it deep copies when j
is not shareable and is itself always shareable), handle i then adopts
its interior and becomes shareable; the temporary dies. -/
def Sys.assignFrom [LinearOrder T] (s : Sys T P) (i j : Nat) : Res T P :=
  match s.handleAt j with
  | some h =>
    if h.shareable_ then
      .ok { s with handles := s.handles.set i ⟨h.data_, true⟩ }
    else
      match h.data_ with
      | some r =>
        match s.dataAt r with
        | some d =>
          .ok { heap := s.heap ++ [d.deepCopy]
              , handles := s.handles.set i ⟨some s.heap.length, true⟩ }
        | none => .error (.nullDeref, s)
      | none => .error (.nullDeref, s)
  | none => .error (.nullDeref, s)

/-- Model of the defaulted move constructor playlist(playlist and):
the new handle steals data_ and copies shareable_; the shared_ptr of
the source is left null. -/
def Sys.moveFrom (s : Sys T P) (i : Nat) : Res T P :=
  match s.handleAt i with
  | some h =>
    .ok { s with handles :=
      (s.handles.set i ⟨none, h.shareable_⟩) ++ [h] }
  | none => .error (.nullDeref, s)

/-- Model of playlist::push_back: save ptr = data_ (one extra owner,
so ensure_unique always detaches), deep copy the interior (detach may
fail, leaving everything untouched), run the interior push_back on the
fresh copy, set shareable_ on success; on failure restore data_ = ptr,
abandoning the fresh copy. -/
def Sys.push_back_f [LinearOrder T] (s : Sys T P) (i : Nat) (t : T)
    (p : P) (fp : FailPoint) : Res T P :=
  match s.handleAt i with
  | some ⟨some r0, _⟩ =>
    match s.dataAt r0 with
    | some d0 =>
      match d0.deepCopy_f fp with
      | none => .error (.userFailure, s)
      | some dc =>
        match dc.push_back_f t p fp with
        | .ok d1 =>
          .ok { heap := s.heap ++ [d1]
              , handles := s.handles.set i ⟨some s.heap.length, true⟩ }
        | .error de =>
          .error (.userFailure, { s with heap := s.heap ++ [de] })
    | none => .error (.nullDeref, s)
  | _ => .error (.nullDeref, s)

/-- Model of playlist::push_back without injected failures. -/
def Sys.push_back [LinearOrder T] (s : Sys T P) (i : Nat) (t : T)
    (p : P) : Res T P :=
  s.push_back_f i t p .noFail

/-- Model of playlist::pop_front: ensure_unique first (no saved ptr),
then the interior pop_front, which throws on an empty queue after the
detach already happened.  shareable_ is not written. -/
def Sys.pop_front [LinearOrder T] (s : Sys T P) (i : Nat) : Res T P :=
  let s1 := s.ensure_unique i 0
  match s1.handleAt i with
  | some ⟨some r, _⟩ =>
    match s1.dataAt r with
    | some d =>
      match d.pop_front with
      | .ok d2 => .ok { s1 with heap := s1.heap.set r d2 }
      | .error e => .error (e, s1)
    | none => .error (.nullDeref, s1)
  | _ => .error (.nullDeref, s1)

/-- Model of playlist::remove: find the map entry in the current
interior (invalid_argument when absent), then ensure_unique, then run
the erasure loop through the iterators obtained by the find, which
designate nodes of the pre-detach interior at heap index r0, so the
erasures take effect there.  shareable_ is not written. -/
def Sys.remove [LinearOrder T] (s : Sys T P) (i : Nat) (k : T) :
    Res T P :=
  match s.handleAt i with
  | some ⟨some r0, _⟩ =>
    match s.dataAt r0 with
    | some d0 =>
      match findTrack d0.tracks k with
      | none => .error (.invalidArgument, s)
      | some occ =>
        let s1 := s.ensure_unique i 0
        match s1.dataAt r0 with
        | some dr =>
          .ok { s1 with heap := s1.heap.set r0 (dr.removeAll occ k) }
        | none => .error (.nullDeref, s1)
    | none => .error (.nullDeref, s)
  | _ => .error (.nullDeref, s)

/-- Model of playlist::clear: point data_ at a freshly allocated empty
interior; the old interior is merely released.  shareable_ is not
written. -/
def Sys.clear (s : Sys T P) (i : Nat) : Res T P :=
  match s.handleAt i with
  | some h =>
    .ok { heap := s.heap ++ [emptyData]
        , handles := s.handles.set i ⟨some s.heap.length, h.shareable_⟩ }
  | none => .error (.nullDeref, s)

/-- Model of playlist::front: out_of_range on an empty queue,
otherwise the track and params of the front node, read only. -/
def Sys.front (s : Sys T P) (i : Nat) : Except Err (T × P) :=
  match s.handleData i with
  | some d =>
    match d.play_queue with
    | [] => .error .outOfRange
    | n :: _ => .ok (n.track, n.params)
  | none => .error .nullDeref

/-- Model of playlist::size: the length of the play queue. -/
def Sys.size (s : Sys T P) (i : Nat) : Except Err Nat :=
  match s.handleData i with
  | some d => .ok d.play_queue.length
  | none => .error .nullDeref

/-- Model of play_begin on handle i: the interior the iterator walks
and the id of the front node; none on an empty queue (the end
iterator) or a null handle. -/
def Sys.play_begin (s : Sys T P) (i : Nat) : Option (Nat × Nat) :=
  match s.handleAt i with
  | some ⟨some r, _⟩ =>
    match s.dataAt r with
    | some d =>
      match d.play_queue with
      | n :: _ => some (r, n.id)
      | [] => none
    | none => none
  | _ => none

/-- Model of the call h.params(it) = v through the non-const accessor:
ensure_unique, set shareable_ to false, return it->params and write v
through it.  The returned reference aliases the node designated by the
iterator, which lives in the interior recorded when the iterator was
made, so the write takes effect in that interior. -/
def Sys.paramsWrite [LinearOrder T] (s : Sys T P) (i : Nat)
    (it : Nat × Nat) (v : P) : Res T P :=
  match s.handleAt i with
  | some ⟨some _, _⟩ =>
    let s1 := s.ensure_unique i 0
    match s1.handleAt i with
    | some h =>
      let s2 : Sys T P :=
        { s1 with handles := s1.handles.set i ⟨h.data_, false⟩ }
      match s2.dataAt it.1 with
      | some d =>
        .ok { s2 with heap := s2.heap.set it.1 (writeParams d it.2 v) }
      | none => .error (.nullDeref, s2)
    | none => .error (.nullDeref, s1)
  | _ => .error (.nullDeref, s)

/-- Push a whole list of plays through the handle in order. -/
def Sys.pushAll [LinearOrder T] (s : Sys T P) (i : Nat) :
    List (T × P) → Res T P
  | [] => .ok s
  | tp :: rest =>
    match s.push_back i tp.1 tp.2 with
    | .ok s2 => s2.pushAll i rest
    | .error e => .error e

/-- Fold a list of plays into an interior by repeated push_back. -/
def pushList [LinearOrder T] (d : playlistData T P)
    (l : List (T × P)) : playlistData T P :=
  l.foldl (fun acc tp => acc.push_back tp.1 tp.2) d

instance {α β} [DecidableEq α] [DecidableEq β] : DecidableEq (Except α β) :=
  fun a b =>
    match a, b with
    | .ok x, .ok y =>
      if h : x = y then .isTrue (by rw [h])
      else .isFalse (by intro hh; cases hh; exact h rfl)
    | .error x, .error y =>
      if h : x = y then .isTrue (by rw [h])
      else .isFalse (by intro hh; cases hh; exact h rfl)
    | .ok _, .error _ => .isFalse (by intro hh; cases hh)
    | .error _, .ok _ => .isFalse (by intro hh; cases hh)

/-- The structural invariant of an interior, maintained by every
interior primitive: each occurrence list holds exactly the ids of the
plays of its key in queue order, the map keys are strictly sorted,
every queued track owns a map entry, node ids are fresh and pairwise
distinct, and no occurrence list is empty. -/
structure DataInv [LinearOrder T] (d : playlistData T P) : Prop where
  occ_eq : ∀ e ∈ d.tracks,
    e.2 = (d.play_queue.filter (fun n => decide (n.track = e.1))).map
      playNode.id
  keys_sorted : (d.tracks.map Prod.fst).Pairwise (· < ·)
  tracks_present : ∀ n ∈ d.play_queue, n.track ∈ d.tracks.map Prod.fst
  ids_lt : ∀ n ∈ d.play_queue, n.id < d.nextId
  ids_nodup : (d.play_queue.map playNode.id).Nodup
  occ_ne : ∀ e ∈ d.tracks, e.2 ≠ []

/-- Every interior on the heap satisfies the structural invariant. -/
def SysInv [LinearOrder T] (s : Sys T P) : Prop :=
  ∀ d ∈ s.heap, DataInv d

/-- Every non-null handle pointer references a live heap cell. -/
abbrev WF (s : Sys T P) : Prop :=
  ∀ h ∈ s.handles, h.data_.all (fun r => decide (r < s.heap.length)) = true

/-- The injected failure actually makes some step of a push_back call
on an interior shaped like d fail: one of the three interior steps, or
the copy of an existing play during the detach. -/
def FailsFor (fp : FailPoint) (d : playlistData T P) : Prop :=
  fp = .emplaceFail ∨ fp = .queueAppendFail ∨ fp = .occInsertFail ∨
    ∃ k, fp = .detachFail k ∧ k < d.play_queue.length

/-- One public operation performed on some handle of the system; the
target is the state the operation leaves behind, also when it
throws. -/
inductive Step [LinearOrder T] : Sys T P → Sys T P → Prop where
  | newPlaylist (s : Sys T P) : Step s s.newPlaylist
  | copyFrom (s : Sys T P) (i : Nat) : Step s (resState (s.copyFrom i))
  | assignFrom (s : Sys T P) (i j : Nat) :
      Step s (resState (s.assignFrom i j))
  | moveFrom (s : Sys T P) (i : Nat) : Step s (resState (s.moveFrom i))
  | push_back (s : Sys T P) (i : Nat) (t : T) (p : P) (fp : FailPoint) :
      Step s (resState (s.push_back_f i t p fp))
  | pop_front (s : Sys T P) (i : Nat) : Step s (resState (s.pop_front i))
  | remove (s : Sys T P) (i : Nat) (k : T) :
      Step s (resState (s.remove i k))
  | clear (s : Sys T P) (i : Nat) : Step s (resState (s.clear i))
  | paramsWrite (s : Sys T P) (i : Nat) (it : Nat × Nat) (v : P) :
      Step s (resState (s.paramsWrite i it v))

/-- States reachable from the empty system by public operations. -/
inductive Reachable [LinearOrder T] : Sys T P → Prop where
  | init : Reachable Sys.empty
  | step {s s2 : Sys T P} : Reachable s → Step s s2 → Reachable s2

/-- Scenario A: a fresh playlist with the single play (0, 10). -/
def c1Single : Sys Nat Nat :=
  resState ((Sys.empty.newPlaylist).push_back 0 0 10)

/-- Scenario A, then B = A built by the copy constructor: the two
handles share the interior. -/
def c1Shared : Sys Nat Nat := resState (c1Single.copyFrom 0)

/-- Scenario A and B sharing, then B.remove(0). -/
def c1After : Sys Nat Nat := resState (c1Shared.remove 1 0)

/-- Scenario A holds the single play (1, 10), B = A shares it. -/
def c2Shared : Sys Nat Nat :=
  resState ((resState ((Sys.empty.newPlaylist).push_back 0 1 10)).copyFrom 0)

/-- The play iterator B.play_begin(), taken while A and B share. -/
def c2Iter : Nat × Nat := (c2Shared.play_begin 1).getD (0, 0)

/-- The write B.params(B.play_begin()) = 99. -/
def c2After : Sys Nat Nat := resState (c2Shared.paramsWrite 1 c2Iter 99)

/-- A fresh playlist holding the play (1, 5), then moved from: the
move constructor steals the interior pointer. -/
def c7Moved : Sys Nat Nat :=
  resState ((resState ((Sys.empty.newPlaylist).push_back 0 1 5)).moveFrom 0)

/-- A fresh playlist holding the play (1, 5); its shareable_ flag is
true after the successful push_back. -/
def c8Fresh : Sys Nat Nat :=
  resState ((Sys.empty.newPlaylist).push_back 0 1 5)

/-- The same handle after writing 7 through the non-const params
accessor: shareable_ has been dropped to false. -/
def c8Locked : Sys Nat Nat :=
  resState (c8Fresh.paramsWrite 0 ((c8Fresh.play_begin 0).getD (0, 0)) 7)

/-- A concrete reachable system: one handle, plays (1,5), (1,6), (2,7)
pushed in that order. -/
def c9Sys : Sys Nat Nat :=
  resState ((resState ((resState
    ((Sys.empty.newPlaylist).push_back 0 1 5)).push_back 0 1 6)).push_back
      0 2 7)

/-- The interior owned by the single handle of c9Sys. -/
def c9Interior : playlistData Nat Nat :=
  ⟨[⟨0, 1, 5⟩, ⟨1, 1, 6⟩, ⟨2, 2, 7⟩], [(1, [0, 1]), (2, [2])], 3⟩

/-- Claim C1: after constructing a copy B of A, any single successful
mutating operation on one handle leaves the other observing exactly
the plays, order, sizes and sorted view it had at the copy.  The code
violates this for remove on a shared interior: the map iterator is
found before ensure_unique, so the erasure loop runs through iterators
into the old shared interior, emptying the peer A while the calling
handle B keeps every play.  At the concrete input, both handles
observe the play (0, 10) at the copy; after B.remove(0) succeeds, A
observes nothing and B still observes (0, 10). -/
theorem remove_on_shared_copy_mutates_peer :
    c1Shared.viewAt 0 = some ([(0, 10)], [(0, 1)]) ∧
    c1Shared.viewAt 1 = some ([(0, 10)], [(0, 1)]) ∧
    resOk (c1Shared.remove 1 0) = true ∧
    c1After.viewAt 0 = some ([], []) ∧
    c1After.viewAt 1 = some ([(0, 10)], [(0, 1)]) := by
  refine ⟨rfl, rfl, rfl, rfl, rfl⟩

/-- Claim C2: the non-const params accessor must hand out a reference
into an interior exclusively owned by the calling handle.  The code
violates this: it detaches the calling handle first, but then returns
it->params, which aliases the node inside the pre-detach interior that
the peers keep owning; a write through the reference therefore mutates
the peer A and not the caller B.  At the concrete input, after the
write of 99 through B.params(B.play_begin()), front of A yields 99 and
front of B yields the untouched 10. -/
theorem params_write_lands_in_shared_peer :
    c2Shared.viewAt 0 = some ([(1, 10)], [(1, 1)]) ∧
    c2Shared.viewAt 1 = some ([(1, 10)], [(1, 1)]) ∧
    c2Shared.play_begin 1 = some c2Iter ∧
    resOk (c2Shared.paramsWrite 1 c2Iter 99) = true ∧
    c2After.front 0 = .ok (1, 99) ∧
    c2After.front 1 = .ok (1, 10) := by
  refine ⟨rfl, rfl, rfl, rfl, rfl, rfl⟩

/-- Claim C7: a moved-from handle should be a valid empty playlist
with size 0 on which push_back still succeeds.  The defaulted move
constructor instead leaves the source with a null interior pointer, so
size and push_back on it dereference a null shared_ptr (the fault
nullDeref in the model) instead of operating on an empty interior. -/
theorem moved_from_handle_is_null :
    c7Moved.handleAt 0 = some ⟨none, true⟩ ∧
    c7Moved.size 0 = .error .nullDeref ∧
    c7Moved.push_back 0 2 6 = .error (.nullDeref, c7Moved) ∧
    c7Moved.size 1 = .ok 1 := by
  refine ⟨rfl, rfl, rfl, rfl⟩

/-- Claim C6 as stated is false: the default constructor leaves
shareable_ at its member-initializer value false, so the copy of a
freshly default-constructed handle deep-copies into a fresh heap cell
(heap index 1) instead of sharing heap index 0. -/
theorem default_ctor_shareable_counterexample :
    (Sys.empty (T := Nat) (P := Nat)).newPlaylist.handleAt 0 =
      some ⟨some 0, false⟩ ∧
    resState ((Sys.empty (T := Nat) (P := Nat)).newPlaylist.copyFrom 0) =
      ⟨[emptyData, emptyData], [⟨some 0, false⟩, ⟨some 1, true⟩]⟩ := by
  refine ⟨rfl, rfl⟩

/-- Claim C6 (amended): default construction allocates an empty
interior but leaves the shareable flag false, so a copy taken from a
freshly default-constructed handle deep-copies the empty interior into
a fresh heap cell; the observable views of the copy nevertheless agree
with the source, both empty. -/
theorem default_ctor_allocates_empty_not_shareable [LinearOrder T]
    (s : Sys T P) :
    (s.newPlaylist).handleAt s.handles.length =
      some ⟨some s.heap.length, false⟩ ∧
    (s.newPlaylist).dataAt s.heap.length = some emptyData ∧
    (s.newPlaylist).copyFrom s.handles.length =
      .ok { heap := (s.heap ++ [emptyData]) ++ [emptyData]
          , handles := (s.handles ++ [⟨some s.heap.length, false⟩]) ++
              [⟨some (s.heap.length + 1), true⟩] } ∧
    (s.newPlaylist).viewAt s.handles.length = some ([], []) := by
  have hh : (s.newPlaylist).handleAt s.handles.length =
      some ⟨some s.heap.length, false⟩ := by
    simp [Sys.newPlaylist, Sys.handleAt, List.getElem?_concat_length]
  have hd : (s.newPlaylist).dataAt s.heap.length = some emptyData := by
    simp [Sys.newPlaylist, Sys.dataAt, List.getElem?_concat_length]
  refine ⟨hh, hd, ?_, ?_⟩
  · rw [Sys.copyFrom, hh]
    simp only [Bool.false_eq_true, if_false]
    rw [hd]
    have hlen : (s.newPlaylist).heap.length = s.heap.length + 1 := by
      simp [Sys.newPlaylist]
    simp [Sys.newPlaylist, playlistData.deepCopy, emptyData, hlen]
  · simp [Sys.viewAt, Sys.handleData, hh, hd, playView, sortedView,
      emptyData]

/-- Claim C8 as stated is false for pop_front: at the concrete input
the handle has shareable_ = false after a non-const params call, the
following pop_front succeeds, and the flag is still false. -/
theorem flag_not_reset_by_pop_front :
    c8Locked.handleAt 0 = some ⟨some 1, false⟩ ∧
    resOk (c8Locked.pop_front 0) = true ∧
    (resState (c8Locked.pop_front 0)).handleAt 0 =
      some ⟨some 1, false⟩ := by
  refine ⟨rfl, rfl, rfl⟩

theorem getElem_of_getElem?_some {α : Type} {l : List α} {i : Nat}
    {x : α} (h : l[i]? = some x) : i < l.length := by
  by_contra hc
  rw [List.getElem?_eq_none (by omega)] at h
  exact Option.noConfusion h

theorem map_shareable_set (l : List playlist) (i j : Nat)
    (h0 x : playlist) (hl : l[i]? = some h0)
    (hsh : x.shareable_ = h0.shareable_) :
    ((l.set i x)[j]?).map playlist.shareable_ =
      (l[j]?).map playlist.shareable_ := by
  by_cases hij : i = j
  · subst hij
    rw [List.getElem?_set_self (getElem_of_getElem?_some hl), hl]
    simp [hsh]
  · rw [List.getElem?_set_ne hij]

theorem ensure_unique_shareable [LinearOrder T] (s : Sys T P)
    (i e j : Nat) :
    ((s.ensure_unique i e).handleAt j).map playlist.shareable_ =
      (s.handleAt j).map playlist.shareable_ := by
  unfold Sys.ensure_unique
  split
  next r sh heq =>
    split
    next d hd =>
      split
      · exact map_shareable_set s.handles i j ⟨some r, sh⟩ _ heq rfl
      · rfl
    next => rfl
  next => rfl

/-- Claim C8 (amended): among the four mutators only push_back writes
the shareable flag (to true) on success; pop_front, remove and clear
leave the flag of every handle exactly as it was, in particular still
false after a preceding non-const params call. -/
theorem flag_reset_only_by_push_back [LinearOrder T]
    (s s1 s2 s3 s4 : Sys T P) (i : Nat) (t k : T) (p : P)
    (hpush : s.push_back i t p = .ok s1)
    (hpop : s.pop_front i = .ok s2)
    (hrem : s.remove i k = .ok s3)
    (hclr : s.clear i = .ok s4) :
    (s1.handleAt i).map playlist.shareable_ = some true ∧
    (s2.handleAt i).map playlist.shareable_ =
      (s.handleAt i).map playlist.shareable_ ∧
    (s3.handleAt i).map playlist.shareable_ =
      (s.handleAt i).map playlist.shareable_ ∧
    (s4.handleAt i).map playlist.shareable_ =
      (s.handleAt i).map playlist.shareable_ := by
  refine ⟨?_, ?_, ?_, ?_⟩
  · rw [Sys.push_back, Sys.push_back_f] at hpush
    split at hpush
    next r0 b heq =>
      split at hpush
      next d0 hd0 =>
        split at hpush
        · exact absurd hpush (by simp)
        next dc hdc =>
          split at hpush
          next d1 hd1 =>
            cases hpush
            rw [Sys.handleAt,
              List.getElem?_set_self (getElem_of_getElem?_some heq)]
            rfl
          next de hde => exact absurd hpush (by simp)
      next => exact absurd hpush (by simp)
    next => exact absurd hpush (by simp)
  · rw [Sys.pop_front] at hpop
    split at hpop
    next r b heq =>
      split at hpop
      next d hd =>
        split at hpop
        next d2 hd2 =>
          cases hpop
          exact ensure_unique_shareable s i 0 i
        next => exact absurd hpop (by simp)
      next => exact absurd hpop (by simp)
    next => exact absurd hpop (by simp)
  · rw [Sys.remove] at hrem
    split at hrem
    next r0 b heq =>
      split at hrem
      next d0 hd0 =>
        split at hrem
        · exact absurd hrem (by simp)
        next occ hocc =>
          simp only [] at hrem
          split at hrem
          next dr hdr =>
            cases hrem
            exact ensure_unique_shareable s i 0 i
          next => exact absurd hrem (by simp)
      next => exact absurd hrem (by simp)
    next => exact absurd hrem (by simp)
  · rw [Sys.clear] at hclr
    split at hclr
    next h heq =>
      cases hclr
      rw [Sys.handleAt,
        List.getElem?_set_self (getElem_of_getElem?_some heq), heq]
      rfl
    next => exact absurd hclr (by simp)

/-- Witness for the amended claim C8 at a concrete input: on the
locked handle every one of the four mutators succeeds, push_back
raises the flag and the other three leave it false. -/
theorem flag_reset_only_by_push_back_witness :
    ((resState (c8Locked.push_back 0 2 3)).handleAt 0).map
      playlist.shareable_ = some true ∧
    ((resState (c8Locked.pop_front 0)).handleAt 0).map
      playlist.shareable_ =
      (c8Locked.handleAt 0).map playlist.shareable_ ∧
    ((resState (c8Locked.remove 0 1)).handleAt 0).map
      playlist.shareable_ =
      (c8Locked.handleAt 0).map playlist.shareable_ ∧
    ((resState (c8Locked.clear 0)).handleAt 0).map
      playlist.shareable_ =
      (c8Locked.handleAt 0).map playlist.shareable_ :=
  flag_reset_only_by_push_back c8Locked
    (resState (c8Locked.push_back 0 2 3))
    (resState (c8Locked.pop_front 0))
    (resState (c8Locked.remove 0 1))
    (resState (c8Locked.clear 0)) 0 2 1 3 rfl rfl rfl rfl

theorem emplace_not_added [LinearOrder T] (ts : List (T × List Nat))
    (k : T) (h : (emplace ts k).2 = false) : (emplace ts k).1 = ts := by
  induction ts with
  | nil => simp [emplace] at h
  | cons e rest ih =>
    rw [emplace] at h ⊢
    by_cases h1 : k < e.1
    · simp [h1] at h
    · by_cases h2 : e.1 < k
      · simp only [h1, h2, if_false, if_true] at h ⊢
        rw [ih h]
      · simp [h1, h2]

theorem emplace_added_erase [LinearOrder T] (ts : List (T × List Nat))
    (k : T) (h : (emplace ts k).2 = true) :
    eraseTrack (emplace ts k).1 k = ts := by
  induction ts with
  | nil => simp [emplace, eraseTrack]
  | cons e rest ih =>
    rw [emplace] at h ⊢
    by_cases h1 : k < e.1
    · simp [h1, eraseTrack]
    · by_cases h2 : e.1 < k
      · have hne : ¬ (e.1 = k) := ne_of_lt h2
        simp only [h1, h2, if_false, if_true] at h ⊢
        rw [eraseTrack]
        simp only [hne, if_false]
        rw [ih h]
      · simp [h1, h2] at h

theorem emplace_rollback [LinearOrder T] (ts : List (T × List Nat))
    (k : T) :
    (if (emplace ts k).2 = true then eraseTrack (emplace ts k).1 k
     else (emplace ts k).1) = ts := by
  cases hadd : (emplace ts k).2 with
  | true =>
    rw [if_pos rfl]
    exact emplace_added_erase ts k hadd
  | false =>
    simp only [Bool.false_eq_true, if_false]
    exact emplace_not_added ts k hadd

/-- The rollback code of playlistData::push_back restores the interior
exactly: whenever an injected failure makes the call throw, the state
carried by the error equals the input interior. -/
theorem push_back_f_error_eq [LinearOrder T] (d : playlistData T P)
    (t : T) (p : P) (fp : FailPoint) (de : playlistData T P)
    (h : d.push_back_f t p fp = .error de) : de = d := by
  cases fp with
  | emplaceFail =>
    rw [playlistData.push_back_f] at h
    injection h with h2
    exact h2.symm
  | queueAppendFail =>
    rw [playlistData.push_back_f] at h
    injection h with h2
    rw [← h2, emplace_rollback]
  | occInsertFail =>
    rw [playlistData.push_back_f] at h
    injection h with h2
    rw [← h2, List.dropLast_concat, emplace_rollback]
  | detachFail k => rw [playlistData.push_back_f] at h; simp at h
  | noFail => rw [playlistData.push_back_f] at h; simp at h

theorem WF_ref {s : Sys T P} (hwf : WF s) {j r : Nat} {b : Bool}
    (hj : s.handleAt j = some ⟨some r, b⟩) : r < s.heap.length := by
  have hx := hwf _ (List.getElem?_mem hj)
  simpa [Option.all] using hx

theorem handleData_some (s : Sys T P) {j r : Nat} {sh : Bool}
    (hj : s.handleAt j = some ⟨some r, sh⟩) :
    s.handleData j = s.dataAt r := by
  rw [Sys.handleData, hj]

theorem handleData_null (s : Sys T P) {j : Nat} {sh : Bool}
    (hj : s.handleAt j = some ⟨none, sh⟩) :
    s.handleData j = none := by
  rw [Sys.handleData, hj]

theorem handleData_no_handle (s : Sys T P) {j : Nat}
    (hj : s.handleAt j = none) :
    s.handleData j = none := by
  rw [Sys.handleData, hj]

/-- A handle whose entry is untouched keeps its view when fresh
interiors are appended to the heap and other handles are rewired. -/
theorem viewAt_append_handles [LinearOrder T] (s : Sys T P)
    (ds : List (playlistData T P)) (hs : List playlist) (j : Nat)
    (hwf : WF s)
    (hsame : (Sys.mk (s.heap ++ ds) hs : Sys T P).handleAt j =
      s.handleAt j) :
    (Sys.mk (s.heap ++ ds) hs : Sys T P).viewAt j = s.viewAt j := by
  cases hj : s.handleAt j with
  | none =>
    rw [Sys.viewAt, Sys.viewAt, handleData_no_handle _ hj,
      handleData_no_handle (Sys.mk (s.heap ++ ds) hs) (hsame.trans hj)]
  | some h =>
    cases h with
    | mk dat sh =>
      cases dat with
      | none =>
        rw [Sys.viewAt, Sys.viewAt, handleData_null _ hj,
          handleData_null (Sys.mk (s.heap ++ ds) hs) (hsame.trans hj)]
      | some r =>
        have hr : r < s.heap.length := WF_ref hwf hj
        have hda : (Sys.mk (s.heap ++ ds) hs : Sys T P).dataAt r =
            s.dataAt r := by
          rw [Sys.dataAt, Sys.dataAt]
          exact List.getElem?_append_left hr
        rw [Sys.viewAt, Sys.viewAt, handleData_some _ hj,
          handleData_some (Sys.mk (s.heap ++ ds) hs) (hsame.trans hj), hda]

/-- A reference into the heap held by any handle stays meaningful when
fresh interiors are merely appended: every view is unchanged. -/
theorem viewAt_heap_append [LinearOrder T] (s : Sys T P)
    (ds : List (playlistData T P)) (hwf : WF s) (j : Nat) :
    (Sys.mk (s.heap ++ ds) s.handles : Sys T P).viewAt j = s.viewAt j :=
  viewAt_append_handles s ds s.handles j hwf rfl

/-- Claim C3: whenever any step of a push_back call fails (a throwing
copy of T or P or an allocation failure at the map insertion, the
queue append, the occurrence-list insertion, or during the deep copy
of a detach), the error propagates to the caller and the handles, the
sharing relation between them, and the observable views of every
handle are exactly as immediately before the call. -/
theorem push_back_strong_exception_safety [LinearOrder T]
    (s : Sys T P) (i : Nat) (t : T) (p : P) (fp : FailPoint)
    (r0 : Nat) (b : Bool) (d0 : playlistData T P)
    (hh : s.handleAt i = some ⟨some r0, b⟩)
    (hd : s.dataAt r0 = some d0)
    (hwf : WF s)
    (hfail : FailsFor fp d0) :
    ∃ e s2, s.push_back_f i t p fp = .error (e, s2) ∧
      s2.handles = s.handles ∧
      ∀ j, s2.viewAt j = s.viewAt j := by
  have hrun : ∀ gp : FailPoint, s.push_back_f i t p gp =
      match d0.deepCopy_f gp with
      | none => .error (.userFailure, s)
      | some dc =>
        match dc.push_back_f t p gp with
        | .ok d1 =>
          .ok { heap := s.heap ++ [d1]
              , handles := s.handles.set i ⟨some s.heap.length, true⟩ }
        | .error de =>
          .error (.userFailure, { s with heap := s.heap ++ [de] }) := by
    intro gp
    simp only [Sys.push_back_f, hh, hd]
  have herr : ∀ de2 : playlistData T P,
      (∃ (e : Err) (s2 : Sys T P), (Except.error (Err.userFailure,
          ({ s with heap := s.heap ++ [de2] } : Sys T P)) : Res T P) =
            Except.error (e, s2) ∧
        s2.handles = s.handles ∧
        ∀ j, s2.viewAt j = s.viewAt j) := by
    intro de2
    refine ⟨.userFailure, _, rfl, rfl, ?_⟩
    intro j
    exact viewAt_heap_append s [de2] hwf j
  rcases hfail with hf | hf | hf | ⟨k, hf, hk⟩
  · subst hf
    rw [hrun]
    rw [show d0.deepCopy_f .emplaceFail = some d0.deepCopy from rfl]
    simp only [playlistData.push_back_f]
    exact herr d0.deepCopy
  · subst hf
    rw [hrun]
    rw [show d0.deepCopy_f .queueAppendFail = some d0.deepCopy from rfl]
    cases he : (d0.deepCopy).push_back_f t p .queueAppendFail with
    | ok d1 => rw [playlistData.push_back_f] at he; cases he
    | error de =>
      simp only [he]
      exact herr de
  · subst hf
    rw [hrun]
    rw [show d0.deepCopy_f .occInsertFail = some d0.deepCopy from rfl]
    cases he : (d0.deepCopy).push_back_f t p .occInsertFail with
    | ok d1 => rw [playlistData.push_back_f] at he; cases he
    | error de =>
      simp only [he]
      exact herr de
  · subst hf
    rw [hrun]
    rw [show d0.deepCopy_f (.detachFail k) =
      (if k < d0.play_queue.length then none else some d0.deepCopy)
      from rfl]
    rw [if_pos hk]
    exact ⟨.userFailure, s, rfl, rfl, fun _ => rfl⟩

/-- Witness for claim C3 at a concrete input: with one play stored and
the occurrence-list insertion made to fail, push_back throws and every
observable is untouched. -/
theorem push_back_strong_exception_safety_witness :
    ∃ e s2, c1Single.push_back_f 0 7 7 .occInsertFail = .error (e, s2) ∧
      s2.handles = c1Single.handles ∧
      ∀ j, s2.viewAt j = c1Single.viewAt j :=
  push_back_strong_exception_safety c1Single 0 7 7 .occInsertFail 1 true
    ⟨[⟨0, 0, 10⟩], [(0, [0])], 1⟩ rfl rfl (by decide)
    (Or.inr (Or.inr (Or.inl rfl)))

theorem handleData_inv (s : Sys T P) {i : Nat} {d : playlistData T P}
    (hd : s.handleData i = some d) :
    ∃ r b, s.handleAt i = some ⟨some r, b⟩ ∧ s.dataAt r = some d := by
  rw [Sys.handleData] at hd
  split at hd
  next r b heq => exact ⟨r, b, heq, hd⟩
  next heq => cases hd

theorem ensure_unique_cases [LinearOrder T] (s : Sys T P) (i : Nat)
    (e r : Nat) (b : Bool) (d : playlistData T P)
    (hh : s.handleAt i = some ⟨some r, b⟩) (hd : s.dataAt r = some d) :
    s.ensure_unique i e = s ∨
    s.ensure_unique i e =
      Sys.mk (s.heap ++ [d.deepCopy])
        (s.handles.set i ⟨some s.heap.length, b⟩) := by
  simp only [Sys.ensure_unique, hh, hd]
  by_cases hc : s.useCount r + e > 1
  · right
    rw [if_pos hc]
  · left
    rw [if_neg hc]

theorem findTrack_eq_none [LinearOrder T] (ts : List (T × List Nat))
    (k : T) (hk : k ∉ ts.map Prod.fst) : findTrack ts k = none := by
  induction ts with
  | nil => rfl
  | cons e rest ih =>
    rw [findTrack]
    simp only [List.map_cons, List.mem_cons] at hk
    push_neg at hk
    rw [if_neg (fun hc => hk.1 hc.symm)]
    exact ih hk.2

theorem tracks_nil_of_queue_nil [LinearOrder T] {d : playlistData T P}
    (hinv : DataInv d) (hq : d.play_queue = []) : d.tracks = [] := by
  cases hts : d.tracks with
  | nil => rfl
  | cons e rest =>
    have hm : e ∈ d.tracks := by rw [hts]; exact List.mem_cons_self e rest
    have h1 := hinv.occ_eq e hm
    rw [hq] at h1
    exact absurd h1 (hinv.occ_ne e hm)

theorem dataInv_empty [LinearOrder T] :
    DataInv (emptyData : playlistData T P) := by
  constructor <;> simp [emptyData]

/-- Claim C5: on an empty handle, front and pop_front raise the
empty-access error kind (std::out_of_range) and every handle keeps its
observable view; remove of a key absent from the sorted index raises
the unknown-argument error kind (std::invalid_argument) before any
mutation, leaving the whole system exactly unchanged. -/
theorem empty_access_and_unknown_argument [LinearOrder T]
    (s : Sys T P) (i : Nat) (d : playlistData T P)
    (hd : s.handleData i = some d) (hwf : WF s) (hinv : DataInv d) :
    (d.play_queue = [] →
      s.front i = .error .outOfRange ∧
      ∃ s2, s.pop_front i = .error (.outOfRange, s2) ∧
        ∀ j, s2.viewAt j = s.viewAt j) ∧
    (∀ k, k ∉ d.tracks.map Prod.fst →
      s.remove i k = .error (.invalidArgument, s)) := by
  obtain ⟨r, b, hh, hdr⟩ := handleData_inv s hd
  constructor
  · intro hq
    have htr : d.tracks = [] := tracks_nil_of_queue_nil hinv hq
    have hdc : d.deepCopy = emptyData := by
      rw [playlistData.deepCopy, hq]
      rfl
    constructor
    · simp only [Sys.front, hd, hq]
    · rcases ensure_unique_cases s i 0 r b d hh hdr with hcase | hcase
      · refine ⟨s, ?_, fun j => rfl⟩
        simp only [Sys.pop_front, hcase, hh, hdr,
          playlistData.pop_front, hq]
      · have hh1 : (Sys.mk (s.heap ++ [d.deepCopy])
            (s.handles.set i ⟨some s.heap.length, b⟩) : Sys T P).handleAt i
            = some ⟨some s.heap.length, b⟩ := by
          rw [Sys.handleAt]
          exact List.getElem?_set_self (getElem_of_getElem?_some hh)
        have hd1 : (Sys.mk (s.heap ++ [d.deepCopy])
            (s.handles.set i ⟨some s.heap.length, b⟩) : Sys T P).dataAt
              s.heap.length = some d.deepCopy := by
          rw [Sys.dataAt]
          exact List.getElem?_concat_length _ _
        refine ⟨Sys.mk (s.heap ++ [d.deepCopy])
            (s.handles.set i ⟨some s.heap.length, b⟩), ?_, ?_⟩
        · simp only [Sys.pop_front, hcase, hh1, hd1]
          rw [hdc]
          simp only [playlistData.pop_front, emptyData]
        · intro j
          by_cases hij : j = i
          · subst hij
            rw [Sys.viewAt, Sys.viewAt, handleData_some _ hh1, hd1,
              handleData_some _ hh, hdr, hdc]
            simp [playView, sortedView, emptyData, hq, htr]
          · exact viewAt_append_handles s [d.deepCopy] _ j hwf
              (by rw [Sys.handleAt, Sys.handleAt]
                  exact List.getElem?_set_ne (fun hc => hij hc.symm))
  · intro k hk
    have hfind : findTrack d.tracks k = none := findTrack_eq_none _ _ hk
    simp only [Sys.remove, hh, hdr, hfind]

/-- Witness for claim C5 at a concrete input: a freshly constructed
empty playlist raises out_of_range from front and invalid_argument
from remove of the absent track 5, with the remove leaving the system
untouched. -/
theorem empty_access_and_unknown_argument_witness :
    ((Sys.empty (T := Nat) (P := Nat)).newPlaylist.front 0 =
      .error .outOfRange) ∧
    ((Sys.empty (T := Nat) (P := Nat)).newPlaylist.remove 0 5 =
      .error (.invalidArgument,
        (Sys.empty (T := Nat) (P := Nat)).newPlaylist)) := by
  have h := empty_access_and_unknown_argument
    ((Sys.empty (T := Nat) (P := Nat)).newPlaylist) 0 emptyData rfl
    (by decide) dataInv_empty
  exact ⟨(h.1 rfl).1, h.2 5 (by decide)⟩

theorem playView_push_back [LinearOrder T] (d : playlistData T P)
    (t : T) (p : P) :
    playView (d.push_back t p) = playView d ++ [(t, p)] := by
  simp [playView, playlistData.push_back]

theorem playView_pushList [LinearOrder T] (d : playlistData T P)
    (l : List (T × P)) : playView (pushList d l) = playView d ++ l := by
  induction l generalizing d with
  | nil => simp [pushList]
  | cons tp rest ih =>
    have h1 : pushList d (tp :: rest) =
        pushList (d.push_back tp.1 tp.2) rest := rfl
    rw [h1, ih, playView_push_back]
    simp

theorem deepCopy_eq_pushList [LinearOrder T] (d : playlistData T P) :
    d.deepCopy = pushList emptyData (playView d) := by
  rw [playlistData.deepCopy, pushList, playView, List.foldl_map]

theorem deepCopy_pushList [LinearOrder T] (l : List (T × P)) :
    (pushList (emptyData : playlistData T P) l).deepCopy =
      pushList emptyData l := by
  rw [deepCopy_eq_pushList, playView_pushList]
  simp [playView, emptyData]

theorem pushList_concat [LinearOrder T] (d : playlistData T P)
    (l : List (T × P)) (tp : T × P) :
    pushList d (l ++ [tp]) = (pushList d l).push_back tp.1 tp.2 := by
  rw [pushList, pushList, List.foldl_append]
  rfl

theorem keys_map_preserve (ts : List (T × List Nat))
    (f : T × List Nat → T × List Nat) (hf : ∀ e, (f e).1 = e.1) :
    (ts.map f).map Prod.fst = ts.map Prod.fst := by
  induction ts with
  | nil => rfl
  | cons e rest ih => simp [hf, ih]

theorem keys_appendOcc [LinearOrder T] (ts : List (T × List Nat))
    (k : T) (nid : Nat) :
    (appendOcc ts k nid).map Prod.fst = ts.map Prod.fst :=
  keys_map_preserve ts _ (fun e => by rw [apply_ite Prod.fst]; simp)

theorem keys_setTrack [LinearOrder T] (ts : List (T × List Nat))
    (k : T) (v : List Nat) :
    (setTrack ts k v).map Prod.fst = ts.map Prod.fst :=
  keys_map_preserve ts _ (fun e => by
    by_cases hc : e.1 = k
    · simp [hc]
    · simp [hc])

theorem mem_keys_emplace [LinearOrder T] (ts : List (T × List Nat))
    (k a : T) :
    a ∈ ((emplace ts k).1).map Prod.fst ↔
      a = k ∨ a ∈ ts.map Prod.fst := by
  induction ts with
  | nil => simp [emplace]
  | cons e rest ih =>
    rw [emplace]
    by_cases h1 : k < e.1
    · simp [h1]
    · by_cases h2 : e.1 < k
      · simp only [h1, h2, if_false, if_true, List.map_cons,
          List.mem_cons]
        rw [ih]
        tauto
      · have hk : k = e.1 := le_antisymm (not_lt.mp h2) (not_lt.mp h1)
        rw [if_neg h1, if_neg h2]
        subst hk
        constructor
        · intro h
          exact Or.inr h
        · rintro (rfl | h)
          · simp
          · exact h

theorem pairwise_keys_emplace [LinearOrder T] (ts : List (T × List Nat))
    (k : T) (hp : (ts.map Prod.fst).Pairwise (· < ·)) :
    (((emplace ts k).1).map Prod.fst).Pairwise (· < ·) := by
  induction ts with
  | nil => simp [emplace]
  | cons e rest ih =>
    rw [emplace]
    rw [List.map_cons, List.pairwise_cons] at hp
    by_cases h1 : k < e.1
    · rw [if_pos h1]
      simp only [List.map_cons, List.pairwise_cons]
      refine ⟨?_, hp.1, hp.2⟩
      intro y hy
      rcases List.mem_cons.mp hy with rfl | hy
      · exact h1
      · exact lt_trans h1 (hp.1 y hy)
    · by_cases h2 : e.1 < k
      · rw [if_neg h1, if_pos h2]
        simp only [List.map_cons, List.pairwise_cons]
        refine ⟨?_, ih hp.2⟩
        intro y hy
        rcases (mem_keys_emplace rest k y).mp hy with rfl | hy
        · exact h2
        · exact hp.1 y hy
      · rw [if_neg h1, if_neg h2]
        rw [List.map_cons, List.pairwise_cons]
        exact hp

theorem keys_push_back [LinearOrder T] (d : playlistData T P)
    (t : T) (p : P) :
    (d.push_back t p).tracks.map Prod.fst =
      ((emplace d.tracks t).1).map Prod.fst := by
  simp only [playlistData.push_back]
  exact keys_appendOcc _ _ _

theorem mem_keys_pushList [LinearOrder T] (d : playlistData T P)
    (l : List (T × P)) (a : T) :
    a ∈ (pushList d l).tracks.map Prod.fst ↔
      a ∈ d.tracks.map Prod.fst ∨ a ∈ l.map Prod.fst := by
  induction l generalizing d with
  | nil => simp [pushList]
  | cons tp rest ih =>
    have h1 : pushList d (tp :: rest) =
        pushList (d.push_back tp.1 tp.2) rest := rfl
    rw [h1, ih, keys_push_back, mem_keys_emplace]
    simp only [List.map_cons, List.mem_cons]
    tauto

theorem pairwise_keys_pushList [LinearOrder T] (d : playlistData T P)
    (l : List (T × P))
    (hp : (d.tracks.map Prod.fst).Pairwise (· < ·)) :
    ((pushList d l).tracks.map Prod.fst).Pairwise (· < ·) := by
  induction l generalizing d with
  | nil => exact hp
  | cons tp rest ih =>
    have h1 : pushList d (tp :: rest) =
        pushList (d.push_back tp.1 tp.2) rest := rfl
    rw [h1]
    apply ih
    rw [keys_push_back]
    exact pairwise_keys_emplace _ _ hp

theorem push_back_step [LinearOrder T] (s : Sys T P) (i : Nat)
    (r : Nat) (b : Bool) (d : playlistData T P) (t : T) (p : P)
    (hh : s.handleAt i = some ⟨some r, b⟩) (hd : s.dataAt r = some d) :
    s.push_back i t p =
      .ok (Sys.mk (s.heap ++ [(d.deepCopy).push_back t p])
        (s.handles.set i ⟨some s.heap.length, true⟩)) := by
  simp only [Sys.push_back, Sys.push_back_f, hh, hd]
  rfl

theorem pushAll_views [LinearOrder T] (l : List (T × P)) :
    ∀ (s : Sys T P) (i r : Nat) (b : Bool) (done : List (T × P)),
      s.handleAt i = some ⟨some r, b⟩ →
      s.dataAt r = some (pushList emptyData done) →
      ∃ (s2 : Sys T P) (r2 : Nat) (b2 : Bool),
        s.pushAll i l = .ok s2 ∧
        s2.handleAt i = some ⟨some r2, b2⟩ ∧
        s2.dataAt r2 = some (pushList emptyData (done ++ l)) := by
  induction l with
  | nil =>
    intro s i r b done hh hd
    exact ⟨s, r, b, rfl, hh, by simpa using hd⟩
  | cons tp rest ih =>
    intro s i r b done hh hd
    have hstep := push_back_step s i r b _ tp.1 tp.2 hh hd
    rw [deepCopy_pushList done, ← pushList_concat] at hstep
    have hh1 : (Sys.mk (s.heap ++ [pushList emptyData (done ++ [tp])])
        (s.handles.set i ⟨some s.heap.length, true⟩) : Sys T P).handleAt i =
        some ⟨some s.heap.length, true⟩ := by
      rw [Sys.handleAt]
      exact List.getElem?_set_self (getElem_of_getElem?_some hh)
    have hd1 : (Sys.mk (s.heap ++ [pushList emptyData (done ++ [tp])])
        (s.handles.set i ⟨some s.heap.length, true⟩) : Sys T P).dataAt
          s.heap.length = some (pushList emptyData (done ++ [tp])) := by
      rw [Sys.dataAt]
      exact List.getElem?_concat_length _ _
    obtain ⟨s2, r2, b2, hrun, hh2, hd2⟩ :=
      ih _ i s.heap.length true (done ++ [tp]) hh1 hd1
    refine ⟨s2, r2, b2, ?_, hh2, ?_⟩
    · rw [Sys.pushAll, hstep]
      exact hrun
    · rw [List.append_assoc] at hd2
      simpa using hd2

/-- Claim C4: pushing any sequence of plays into a fresh playlist
succeeds, the play iterator then yields exactly the pushed pairs in
insertion order, and the sorted iterator yields exactly the distinct
pushed tracks in strictly increasing order of T. -/
theorem push_back_sequence_views [LinearOrder T] (l : List (T × P)) :
    ∃ (s2 : Sys T P) (d : playlistData T P),
      (Sys.empty.newPlaylist).pushAll 0 l = .ok s2 ∧
      s2.handleData 0 = some d ∧
      playView d = l ∧
      ((d.tracks.map Prod.fst).Pairwise (· < ·)) ∧
      (∀ a, a ∈ d.tracks.map Prod.fst ↔ a ∈ l.map Prod.fst) := by
  obtain ⟨s2, r2, b2, hrun, hh2, hd2⟩ := pushAll_views l
    (Sys.empty.newPlaylist) 0 0 false [] rfl rfl
  rw [List.nil_append] at hd2
  refine ⟨s2, pushList emptyData l, hrun, ?_, ?_, ?_, ?_⟩
  · rw [handleData_some s2 hh2]
    exact hd2
  · rw [playView_pushList]
    simp [playView, emptyData]
  · apply pairwise_keys_pushList
    simp [emptyData]
  · intro a
    rw [mem_keys_pushList]
    simp [emptyData]

theorem emplace_added_not_mem [LinearOrder T] {ts : List (T × List Nat)}
    {k : T} (hp : (ts.map Prod.fst).Pairwise (· < ·))
    (h : (emplace ts k).2 = true) : k ∉ ts.map Prod.fst := by
  induction ts with
  | nil => simp
  | cons e rest ih =>
    rw [List.map_cons, List.pairwise_cons] at hp
    rw [emplace] at h
    by_cases h1 : k < e.1
    · intro hmem
      rcases List.mem_cons.mp hmem with heq | hmem
      · rw [heq] at h1
        exact lt_irrefl e.1 h1
      · exact absurd (hp.1 k hmem) (not_lt.mpr (le_of_lt h1))
    · by_cases h2 : e.1 < k
      · rw [if_neg h1, if_pos h2] at h
        intro hmem
        rcases List.mem_cons.mp hmem with heq | hmem
        · rw [heq] at h2
          exact lt_irrefl e.1 h2
        · exact ih hp.2 h hmem
      · rw [if_neg h1, if_neg h2] at h
        cases h

theorem mem_emplace_added [LinearOrder T] {ts : List (T × List Nat)}
    {k : T} (h : (emplace ts k).2 = true) (x : T × List Nat) :
    x ∈ (emplace ts k).1 ↔ x = (k, []) ∨ x ∈ ts := by
  induction ts with
  | nil => simp [emplace]
  | cons e rest ih =>
    rw [emplace] at h ⊢
    by_cases h1 : k < e.1
    · rw [if_pos h1] at h ⊢
      dsimp only
      simp only [List.mem_cons]
    · by_cases h2 : e.1 < k
      · rw [if_neg h1, if_pos h2] at h ⊢
        dsimp only
        simp only [List.mem_cons]
        rw [ih h]
        tauto
      · rw [if_neg h1, if_neg h2] at h
        cases h

theorem findTrack_some_mem [LinearOrder T] {ts : List (T × List Nat)}
    {k : T} {occ : List Nat} (h : findTrack ts k = some occ) :
    (k, occ) ∈ ts := by
  induction ts with
  | nil => cases h
  | cons e rest ih =>
    rw [findTrack] at h
    by_cases hc : e.1 = k
    · rw [if_pos hc] at h
      injection h with h2
      rw [← hc, ← h2]
      exact List.mem_cons_self e rest
    · rw [if_neg hc] at h
      exact List.mem_cons.mpr (Or.inr (ih h))

theorem findTrack_isSome_of_mem_keys [LinearOrder T]
    {ts : List (T × List Nat)} {k : T} (h : k ∈ ts.map Prod.fst) :
    ∃ occ, findTrack ts k = some occ := by
  induction ts with
  | nil => simp at h
  | cons e rest ih =>
    rw [findTrack]
    by_cases hc : e.1 = k
    · exact ⟨e.2, by rw [if_pos hc]⟩
    · rw [if_neg hc]
      apply ih
      rw [List.map_cons] at h
      rcases List.mem_cons.mp h with h1 | h1
      · exact absurd h1.symm hc
      · exact h1

theorem eraseTrack_sublist [LinearOrder T] (ts : List (T × List Nat))
    (k : T) : (eraseTrack ts k).Sublist ts := by
  induction ts with
  | nil => simp [eraseTrack]
  | cons e rest ih =>
    rw [eraseTrack]
    by_cases hc : e.1 = k
    · rw [if_pos hc]
      exact List.sublist_cons_self e rest
    · rw [if_neg hc]
      exact List.Sublist.cons₂ e ih

theorem mem_eraseTrack [LinearOrder T] {ts : List (T × List Nat)}
    {k : T} {x : T × List Nat} (h : x ∈ eraseTrack ts k) : x ∈ ts :=
  (eraseTrack_sublist ts k).subset h

theorem mem_eraseTrack_of_ne [LinearOrder T] {ts : List (T × List Nat)}
    {k : T} {x : T × List Nat} (hx : x ∈ ts) (hne : x.1 ≠ k) :
    x ∈ eraseTrack ts k := by
  induction ts with
  | nil => cases hx
  | cons e rest ih =>
    rw [eraseTrack]
    rcases List.mem_cons.mp hx with heq | hx
    · rw [heq]
      rw [if_neg (heq ▸ hne)]
      exact List.mem_cons_self e (eraseTrack rest k)
    · by_cases hc : e.1 = k
      · rw [if_pos hc]
        exact hx
      · rw [if_neg hc]
        exact List.mem_cons.mpr (Or.inr (ih hx))

theorem keys_eraseTrack_not_mem [LinearOrder T]
    {ts : List (T × List Nat)} {k : T}
    (hp : (ts.map Prod.fst).Pairwise (· < ·)) :
    k ∉ (eraseTrack ts k).map Prod.fst := by
  induction ts with
  | nil => simp [eraseTrack]
  | cons e rest ih =>
    rw [List.map_cons, List.pairwise_cons] at hp
    rw [eraseTrack]
    by_cases hc : e.1 = k
    · rw [if_pos hc]
      intro hmem
      have hlt := hp.1 k hmem
      rw [hc] at hlt
      exact lt_irrefl k hlt
    · rw [if_neg hc]
      intro hmem
      rw [List.map_cons] at hmem
      rcases List.mem_cons.mp hmem with h1 | h1
      · exact hc h1.symm
      · exact ih hp.2 h1

theorem mem_setTrack [LinearOrder T] {ts : List (T × List Nat)}
    {k : T} {v : List Nat} {x : T × List Nat} (h : x ∈ setTrack ts k v) :
    (x ∈ ts ∧ x.1 ≠ k) ∨ (x = (k, v) ∧ k ∈ ts.map Prod.fst) := by
  rw [setTrack] at h
  obtain ⟨e, he, hfe⟩ := List.mem_map.mp h
  by_cases hc : e.1 = k
  · rw [if_pos hc] at hfe
    right
    constructor
    · rw [← hfe, hc]
    · exact List.mem_map.mpr ⟨e, he, hc⟩
  · rw [if_neg hc] at hfe
    left
    rw [← hfe]
    exact ⟨he, hc⟩

theorem mem_appendOcc [LinearOrder T] {ts : List (T × List Nat)}
    {k : T} {nid : Nat} {x : T × List Nat} (h : x ∈ appendOcc ts k nid) :
    (x ∈ ts ∧ x.1 ≠ k) ∨
      (∃ occ, (k, occ) ∈ ts ∧ x = (k, occ ++ [nid])) := by
  rw [appendOcc] at h
  obtain ⟨e, he, hfe⟩ := List.mem_map.mp h
  by_cases hc : e.1 = k
  · right
    rw [if_pos hc] at hfe
    refine ⟨e.2, ?_, ?_⟩
    · rw [← hc]
      exact he
    · rw [← hfe, hc]
  · left
    rw [if_neg hc] at hfe
    rw [← hfe]
    exact ⟨he, hc⟩

theorem mem_emplace_of_key_ne [LinearOrder T] {ts : List (T × List Nat)}
    {k : T} {e : T × List Nat} (he : e ∈ (emplace ts k).1)
    (hne : e.1 ≠ k) : e ∈ ts := by
  cases hadd : (emplace ts k).2 with
  | true =>
    rcases (mem_emplace_added hadd e).mp he with heq | hm
    · rw [heq] at hne
      exact absurd rfl hne
    · exact hm
  | false =>
    rw [emplace_not_added _ _ hadd] at he
    exact he

theorem filter_track_append_ne [LinearOrder T] (q : List (playNode T P))
    (n : playNode T P) (a : T) (hne : ¬ (n.track = a)) :
    (q ++ [n]).filter (fun m => decide (m.track = a)) =
      q.filter (fun m => decide (m.track = a)) := by
  rw [List.filter_append]
  simp [hne]

theorem filter_track_append_eq [LinearOrder T] (q : List (playNode T P))
    (n : playNode T P) (a : T) (heq : n.track = a) :
    (q ++ [n]).filter (fun m => decide (m.track = a)) =
      q.filter (fun m => decide (m.track = a)) ++ [n] := by
  rw [List.filter_append]
  simp [heq]

theorem filter_track_nil_of_not_mem [LinearOrder T]
    {d : playlistData T P} (hinv : DataInv d) {a : T}
    (ha : a ∉ d.tracks.map Prod.fst) :
    d.play_queue.filter (fun m => decide (m.track = a)) = [] := by
  apply List.filter_eq_nil_iff.mpr
  intro m hm
  simp only [decide_eq_true_eq]
  intro htr
  exact ha (htr ▸ hinv.tracks_present m hm)

theorem inv_push_back [LinearOrder T] {d : playlistData T P}
    (hinv : DataInv d) (t : T) (p : P) : DataInv (d.push_back t p) := by
  have hq : (d.push_back t p).play_queue =
      d.play_queue ++ [⟨d.nextId, t, p⟩] := rfl
  have hts : (d.push_back t p).tracks =
      appendOcc (emplace d.tracks t).1 t d.nextId := rfl
  have hnext : (d.push_back t p).nextId = d.nextId + 1 := rfl
  constructor
  · intro e he
    rw [hts] at he
    rw [hq]
    rcases mem_appendOcc he with ⟨he1, hne⟩ | ⟨occ, hocc, hex⟩
    · have he2 : e ∈ d.tracks := mem_emplace_of_key_ne he1 hne
      rw [filter_track_append_ne _ _ _ (fun hc => hne hc.symm)]
      exact hinv.occ_eq e he2
    · subst hex
      dsimp only
      rw [filter_track_append_eq d.play_queue ⟨d.nextId, t, p⟩ t rfl,
        List.map_append]
      cases hadd : (emplace d.tracks t).2 with
      | true =>
        rcases (mem_emplace_added hadd (t, occ)).mp hocc with heq2 | hm
        · injection heq2 with h1 h2
          subst h2
          have hnil : d.play_queue.filter
              (fun m => decide (m.track = t)) = [] :=
            filter_track_nil_of_not_mem hinv
              (emplace_added_not_mem hinv.keys_sorted hadd)
          rw [hnil]
          rfl
        · exact absurd (List.mem_map.mpr ⟨(t, occ), hm, rfl⟩)
            (emplace_added_not_mem hinv.keys_sorted hadd)
      | false =>
        rw [emplace_not_added _ _ hadd] at hocc
        have hoc := hinv.occ_eq (t, occ) hocc
        dsimp only at hoc
        rw [hoc]
        rfl
  · rw [hts, keys_appendOcc]
    exact pairwise_keys_emplace _ _ hinv.keys_sorted
  · intro n hn
    rw [hq] at hn
    rw [hts, keys_appendOcc]
    rcases List.mem_append.mp hn with hn | hn
    · rw [mem_keys_emplace]
      exact Or.inr (hinv.tracks_present n hn)
    · rw [List.mem_singleton.mp hn, mem_keys_emplace]
      exact Or.inl rfl
  · intro n hn
    rw [hq] at hn
    rw [hnext]
    rcases List.mem_append.mp hn with hn | hn
    · exact lt_trans (hinv.ids_lt n hn) (Nat.lt_succ_self _)
    · rw [List.mem_singleton.mp hn]
      exact Nat.lt_succ_self _
  · rw [hq, List.map_append, List.nodup_append]
    refine ⟨hinv.ids_nodup, List.nodup_singleton _, ?_⟩
    intro a ha hb
    have hbb : a = d.nextId := by simpa using hb
    obtain ⟨m, hm, hid⟩ := List.mem_map.mp ha
    have hlt := hinv.ids_lt m hm
    omega
  · intro e he
    rw [hts] at he
    rcases mem_appendOcc he with ⟨he1, hne⟩ | ⟨occ, hocc, hex⟩
    · exact hinv.occ_ne e (mem_emplace_of_key_ne he1 hne)
    · rw [hex]
      simp

theorem inv_pushList [LinearOrder T] {d : playlistData T P}
    (hinv : DataInv d) (l : List (T × P)) : DataInv (pushList d l) := by
  induction l generalizing d with
  | nil => exact hinv
  | cons tp rest ih => exact ih (inv_push_back hinv tp.1 tp.2)

theorem inv_deepCopy [LinearOrder T] (d : playlistData T P) :
    DataInv d.deepCopy := by
  rw [deepCopy_eq_pushList]
  exact inv_pushList dataInv_empty _

theorem mem_keys_eraseTrack_of_ne [LinearOrder T]
    {ts : List (T × List Nat)} {k a : T}
    (ha : a ∈ ts.map Prod.fst) (hne : a ≠ k) :
    a ∈ (eraseTrack ts k).map Prod.fst := by
  obtain ⟨e, he, hfe⟩ := List.mem_map.mp ha
  exact List.mem_map.mpr
    ⟨e, mem_eraseTrack_of_ne he (by rw [hfe]; exact hne), hfe⟩

theorem inv_pop_front [LinearOrder T] {d d2 : playlistData T P}
    (hinv : DataInv d) (h : d.pop_front = .ok d2) : DataInv d2 := by
  cases hq : d.play_queue with
  | nil =>
    rw [playlistData.pop_front, hq] at h
    cases h
  | cons node rest =>
    rw [playlistData.pop_front, hq] at h
    simp only [] at h
    injection h with h2
    subst h2
    have hmemnode : node ∈ d.play_queue := by
      rw [hq]
      exact List.mem_cons_self _ _
    have hkey : node.track ∈ d.tracks.map Prod.fst :=
      hinv.tracks_present node hmemnode
    obtain ⟨occ0, hfind⟩ := findTrack_isSome_of_mem_keys hkey
    have hmem0 : (node.track, occ0) ∈ d.tracks := findTrack_some_mem hfind
    have hocc0 : occ0 = node.id ::
        (rest.filter (fun n => decide (n.track = node.track))).map
          playNode.id := by
      have h1 := hinv.occ_eq (node.track, occ0) hmem0
      dsimp only at h1
      rw [hq, List.filter_cons_of_pos (by simp)] at h1
      simpa using h1
    have hrest_sub : ∀ m ∈ rest, m ∈ d.play_queue := by
      intro m hm
      rw [hq]
      exact List.mem_cons.mpr (Or.inr hm)
    have hnodup_rest : (rest.map playNode.id).Nodup := by
      have hx := hinv.ids_nodup
      rw [hq, List.map_cons] at hx
      exact (List.nodup_cons.mp hx).2
    have herase : ((findTrack d.tracks node.track).getD []).erase node.id
        = (rest.filter (fun n => decide (n.track = node.track))).map
            playNode.id := by
      rw [hfind]
      simp only [Option.getD_some]
      rw [hocc0, List.erase_cons_head]
    rw [herase]
    have hfilter_ne : ∀ a : T, ¬ (node.track = a) →
        d.play_queue.filter (fun n => decide (n.track = a)) =
          rest.filter (fun n => decide (n.track = a)) := by
      intro a hne
      rw [hq, List.filter_cons_of_neg (by simpa using hne)]
    by_cases hemp :
        rest.filter (fun n => decide (n.track = node.track)) = []
    · rw [hemp]
      simp only [List.map_nil, List.isEmpty_nil, if_true]
      have hkeyerase := keys_eraseTrack_not_mem
        (k := node.track) hinv.keys_sorted
      constructor
      · intro e he
        have hee : e ∈ d.tracks := mem_eraseTrack he
        have hne : e.1 ≠ node.track := by
          intro hc
          exact hkeyerase (List.mem_map.mpr ⟨e, he, hc⟩)
        have h1 := hinv.occ_eq e hee
        rw [hfilter_ne e.1 (fun hc => hne hc.symm)] at h1
        exact h1
      · exact List.Pairwise.sublist
          (List.Sublist.map Prod.fst (eraseTrack_sublist _ _))
          hinv.keys_sorted
      · intro m hm
        have hne : m.track ≠ node.track := by
          intro hc
          have : m ∈ rest.filter
              (fun n => decide (n.track = node.track)) :=
            List.mem_filter.mpr ⟨hm, by simp [hc]⟩
          rw [hemp] at this
          cases this
        exact mem_keys_eraseTrack_of_ne
          (hinv.tracks_present m (hrest_sub m hm)) hne
      · intro m hm
        exact hinv.ids_lt m (hrest_sub m hm)
      · exact hnodup_rest
      · intro e he
        exact hinv.occ_ne e (mem_eraseTrack he)
    · have hargne :
          ((rest.filter (fun n => decide (n.track = node.track))).map
            playNode.id).isEmpty = false := by
        rw [List.isEmpty_eq_false_iff_exists_mem]
        rcases List.exists_mem_of_ne_nil _ hemp with ⟨m, hm⟩
        exact ⟨m.id, List.mem_map.mpr ⟨m, hm, rfl⟩⟩
      rw [hargne]
      simp only [Bool.false_eq_true, if_false]
      constructor
      · intro e he
        rcases mem_setTrack he with ⟨hee, hne⟩ | ⟨hee, _⟩
        · have h1 := hinv.occ_eq e hee
          rw [hfilter_ne e.1 (fun hc => hne hc.symm)] at h1
          exact h1
        · rw [hee]
      · rw [keys_setTrack]
        exact hinv.keys_sorted
      · intro m hm
        rw [keys_setTrack]
        exact hinv.tracks_present m (hrest_sub m hm)
      · intro m hm
        exact hinv.ids_lt m (hrest_sub m hm)
      · exact hnodup_rest
      · intro e he
        rcases mem_setTrack he with ⟨hee, _⟩ | ⟨hee, _⟩
        · exact hinv.occ_ne e hee
        · rw [hee]
          simp only [ne_eq]
          intro hc
          exact hemp (List.map_eq_nil_iff.mp hc)

theorem contains_iff_track [LinearOrder T] {d : playlistData T P}
    (hinv : DataInv d) {k : T} {occ : List Nat}
    (hmem : (k, occ) ∈ d.tracks) :
    ∀ n ∈ d.play_queue, occ.contains n.id = decide (n.track = k) := by
  intro n hn
  have hocc := hinv.occ_eq (k, occ) hmem
  dsimp only at hocc
  by_cases hc : n.track = k
  · have hfm : n ∈ d.play_queue.filter (fun m => decide (m.track = k)) :=
      List.mem_filter.mpr ⟨hn, by simp [hc]⟩
    have : n.id ∈ occ := by
      rw [hocc]
      exact List.mem_map.mpr ⟨n, hfm, rfl⟩
    simp [List.contains, List.elem_eq_mem, this, hc]
  · have : n.id ∉ occ := by
      rw [hocc]
      intro hmem2
      obtain ⟨m, hmf, hid⟩ := List.mem_map.mp hmem2
      obtain ⟨hmq, hmt⟩ := List.mem_filter.mp hmf
      have hmn : m = n :=
        List.inj_on_of_nodup_map hinv.ids_nodup hmq hn hid
      rw [hmn] at hmt
      simp only [decide_eq_true_eq] at hmt
      exact hc hmt
    simp [List.contains, List.elem_eq_mem, this, hc]

theorem inv_removeAll [LinearOrder T] {d : playlistData T P}
    (hinv : DataInv d) {k : T} {occ : List Nat}
    (hfind : findTrack d.tracks k = some occ) :
    DataInv (d.removeAll occ k) := by
  have hmem : (k, occ) ∈ d.tracks := findTrack_some_mem hfind
  have hcont := contains_iff_track hinv hmem
  have hfq : d.play_queue.filter (fun n => !(occ.contains n.id)) =
      d.play_queue.filter (fun n => !(decide (n.track = k))) :=
    List.filter_congr' (fun n hn => by rw [hcont n hn])
  have hq2 : (d.removeAll occ k).play_queue =
      d.play_queue.filter (fun n => !(decide (n.track = k))) := by
    rw [playlistData.removeAll] at *
    exact hfq
  have hts2 : (d.removeAll occ k).tracks = eraseTrack d.tracks k := rfl
  have hnext2 : (d.removeAll occ k).nextId = d.nextId := rfl
  have hsubq : ∀ m ∈ (d.removeAll occ k).play_queue,
      m ∈ d.play_queue ∧ m.track ≠ k := by
    intro m hm
    rw [hq2] at hm
    obtain ⟨hmq, hmp⟩ := List.mem_filter.mp hm
    refine ⟨hmq, ?_⟩
    simpa using hmp
  constructor
  · intro e he
    rw [hts2] at he
    have hee : e ∈ d.tracks := mem_eraseTrack he
    have hne : e.1 ≠ k := by
      intro hc
      exact keys_eraseTrack_not_mem hinv.keys_sorted
        (List.mem_map.mpr ⟨e, he, hc⟩)
    rw [hq2, List.filter_filter]
    have hflt : d.play_queue.filter
        (fun a => decide (a.track = e.1) && !(decide (a.track = k))) =
        d.play_queue.filter (fun a => decide (a.track = e.1)) :=
      List.filter_congr' (fun n _ => by
        by_cases hc : n.track = e.1
        · simp [hc, hne]
        · simp [hc])
    rw [hflt]
    exact hinv.occ_eq e hee
  · rw [hts2]
    exact List.Pairwise.sublist
      (List.Sublist.map Prod.fst (eraseTrack_sublist _ _))
      hinv.keys_sorted
  · intro m hm
    obtain ⟨hmq, hmne⟩ := hsubq m hm
    rw [hts2]
    exact mem_keys_eraseTrack_of_ne (hinv.tracks_present m hmq) hmne
  · intro m hm
    rw [hnext2]
    exact hinv.ids_lt m (hsubq m hm).1
  · have : (d.removeAll occ k).play_queue.Sublist d.play_queue := by
      rw [hq2]
      exact List.filter_sublist _
    exact List.Nodup.sublist (List.Sublist.map playNode.id this)
      hinv.ids_nodup
  · intro e he
    rw [hts2] at he
    exact hinv.occ_ne e (mem_eraseTrack he)

theorem inv_writeParams [LinearOrder T] {d : playlistData T P}
    (hinv : DataInv d) (nid : Nat) (v : P) :
    DataInv (writeParams d nid v) := by
  have hg : ∀ n : playNode T P,
      ((fun n => if n.id = nid then { n with params := v } else n) n).track
        = n.track ∧
      ((fun n => if n.id = nid then { n with params := v } else n) n).id
        = n.id := by
    intro n
    by_cases hc : n.id = nid
    · simp [hc]
    · simp [hc]
  have hq2 : (writeParams d nid v).play_queue =
      d.play_queue.map
        (fun n => if n.id = nid then { n with params := v } else n) := rfl
  have hts2 : (writeParams d nid v).tracks = d.tracks := rfl
  have hnext2 : (writeParams d nid v).nextId = d.nextId := rfl
  have hids : (writeParams d nid v).play_queue.map playNode.id =
      d.play_queue.map playNode.id := by
    rw [hq2, List.map_map]
    exact List.map_congr_left (fun n _ => (hg n).2)
  have hfilter : ∀ a : T,
      (writeParams d nid v).play_queue.filter
          (fun n => decide (n.track = a)) =
        (d.play_queue.filter (fun n => decide (n.track = a))).map
          (fun n => if n.id = nid then { n with params := v } else n) := by
    intro a
    rw [hq2, List.map_filter]
    congr 1
    apply List.filter_congr'
    intro n _
    simp only [Function.comp]
    rw [(hg n).1]
  constructor
  · intro e he
    rw [hts2] at he
    rw [hfilter e.1, List.map_map]
    have : (d.play_queue.filter (fun n => decide (n.track = e.1))).map
        (playNode.id ∘
          (fun n => if n.id = nid then { n with params := v } else n)) =
        (d.play_queue.filter (fun n => decide (n.track = e.1))).map
          playNode.id :=
      List.map_congr_left (fun n _ => (hg n).2)
    rw [this]
    exact hinv.occ_eq e he
  · rw [hts2]
    exact hinv.keys_sorted
  · intro m hm
    rw [hq2] at hm
    obtain ⟨n, hn, hfn⟩ := List.mem_map.mp hm
    rw [hts2, ← hfn, (hg n).1]
    exact hinv.tracks_present n hn
  · intro m hm
    rw [hq2] at hm
    obtain ⟨n, hn, hfn⟩ := List.mem_map.mp hm
    rw [hnext2, ← hfn, (hg n).2]
    exact hinv.ids_lt n hn
  · rw [hids]
    exact hinv.ids_nodup
  · intro e he
    rw [hts2] at he
    exact hinv.occ_ne e he

theorem deepCopy_f_some [LinearOrder T] {d dc : playlistData T P}
    {fp : FailPoint} (h : d.deepCopy_f fp = some dc) : dc = d.deepCopy := by
  cases fp with
  | detachFail k =>
    rw [playlistData.deepCopy_f] at h
    by_cases hk : k < d.play_queue.length
    · rw [if_pos hk] at h
      cases h
    · rw [if_neg hk] at h
      injection h with h2
      exact h2.symm
  | emplaceFail =>
    rw [playlistData.deepCopy_f] at h
    injection h with h2
    exact h2.symm
  | queueAppendFail =>
    rw [playlistData.deepCopy_f] at h
    injection h with h2
    exact h2.symm
  | occInsertFail =>
    rw [playlistData.deepCopy_f] at h
    injection h with h2
    exact h2.symm
  | noFail =>
    rw [playlistData.deepCopy_f] at h
    injection h with h2
    exact h2.symm

theorem push_back_f_ok_eq [LinearOrder T] {d d1 : playlistData T P}
    {t : T} {p : P} {fp : FailPoint}
    (h : d.push_back_f t p fp = .ok d1) : d1 = d.push_back t p := by
  cases fp with
  | emplaceFail => rw [playlistData.push_back_f] at h; cases h
  | queueAppendFail => rw [playlistData.push_back_f] at h; simp at h
  | occInsertFail => rw [playlistData.push_back_f] at h; simp at h
  | detachFail k =>
    rw [playlistData.push_back_f] at h
    injection h with h2
    exact h2.symm
  | noFail =>
    rw [playlistData.push_back_f] at h
    injection h with h2
    exact h2.symm

theorem ensure_unique_dataAt [LinearOrder T] (s : Sys T P) (i e r : Nat)
    (hr : r < s.heap.length) :
    (s.ensure_unique i e).dataAt r = s.dataAt r := by
  rw [Sys.ensure_unique]
  split
  next r0 sh heq =>
    split
    next d hd =>
      split
      · rw [Sys.dataAt, Sys.dataAt]
        exact List.getElem?_append_left hr
      · rfl
    next => rfl
  next => rfl

theorem sysInv_mk_append [LinearOrder T] {s : Sys T P} (hs : SysInv s)
    {ds : List (playlistData T P)} (hds : ∀ d ∈ ds, DataInv d)
    (hl : List playlist) : SysInv (Sys.mk (s.heap ++ ds) hl) := by
  intro d hd
  rcases List.mem_append.mp hd with h | h
  · exact hs d h
  · exact hds d h

theorem sysInv_mk_set [LinearOrder T] {s : Sys T P} (hs : SysInv s)
    {r : Nat} {dnew : playlistData T P} (hdnew : DataInv dnew)
    (hl : List playlist) : SysInv (Sys.mk (s.heap.set r dnew) hl) := by
  intro d hd
  rcases List.mem_or_eq_of_mem_set hd with h | h
  · exact hs d h
  · rw [h]
    exact hdnew

theorem sysInv_dataAt [LinearOrder T] {s : Sys T P} (hs : SysInv s)
    {r : Nat} {d : playlistData T P} (hd : s.dataAt r = some d) :
    DataInv d := hs d (List.getElem?_mem hd)

theorem sysInv_ensure_unique [LinearOrder T] {s : Sys T P} (hs : SysInv s)
    (i e : Nat) : SysInv (s.ensure_unique i e) := by
  rw [Sys.ensure_unique]
  split
  next r sh heq =>
    split
    next d hd =>
      split
      · exact sysInv_mk_append hs (fun x hx => by
          rw [List.mem_singleton.mp hx]
          exact inv_deepCopy d) _
      · exact hs
    next => exact hs
  next => exact hs

theorem sysInv_newPlaylist [LinearOrder T] {s : Sys T P} (hs : SysInv s) :
    SysInv s.newPlaylist :=
  sysInv_mk_append hs (fun d hd => by
    rw [List.mem_singleton.mp hd]
    exact dataInv_empty) _

theorem sysInv_copyFrom [LinearOrder T] {s : Sys T P} (hs : SysInv s)
    (i : Nat) : SysInv (resState (s.copyFrom i)) := by
  rw [Sys.copyFrom]
  split
  next h heq =>
    split
    · exact hs
    · split
      next r =>
        split
        next d hd =>
          exact sysInv_mk_append hs (fun x hx => by
            rw [List.mem_singleton.mp hx]
            exact inv_deepCopy d) _
        next => exact hs
      next => exact hs
  next => exact hs

theorem sysInv_assignFrom [LinearOrder T] {s : Sys T P} (hs : SysInv s)
    (i j : Nat) : SysInv (resState (s.assignFrom i j)) := by
  rw [Sys.assignFrom]
  split
  next h heq =>
    split
    · exact hs
    · split
      next r =>
        split
        next d hd =>
          exact sysInv_mk_append hs (fun x hx => by
            rw [List.mem_singleton.mp hx]
            exact inv_deepCopy d) _
        next => exact hs
      next => exact hs
  next => exact hs

theorem sysInv_moveFrom [LinearOrder T] {s : Sys T P} (hs : SysInv s)
    (i : Nat) : SysInv (resState (s.moveFrom i)) := by
  rw [Sys.moveFrom]
  split
  next h heq => exact hs
  next => exact hs

theorem sysInv_push_back_f [LinearOrder T] {s : Sys T P} (hs : SysInv s)
    (i : Nat) (t : T) (p : P) (fp : FailPoint) :
    SysInv (resState (s.push_back_f i t p fp)) := by
  rw [Sys.push_back_f]
  split
  next r0 b heq =>
    split
    next d0 hd0 =>
      split
      · exact hs
      next dc hdc =>
        have hdc2 : dc = d0.deepCopy := deepCopy_f_some hdc
        split
        next d1 hd1 =>
          have h1 : d1 = dc.push_back t p := push_back_f_ok_eq hd1
          exact sysInv_mk_append hs (fun x hx => by
            rw [List.mem_singleton.mp hx, h1, hdc2]
            exact inv_push_back (inv_deepCopy d0) t p) _
        next de hde =>
          have h1 : de = dc := push_back_f_error_eq _ _ _ _ _ hde
          exact sysInv_mk_append hs (fun x hx => by
            rw [List.mem_singleton.mp hx, h1, hdc2]
            exact inv_deepCopy d0) _
    next => exact hs
  next => exact hs

theorem sysInv_pop_front [LinearOrder T] {s : Sys T P} (hs : SysInv s)
    (i : Nat) : SysInv (resState (s.pop_front i)) := by
  have hs1 : SysInv (s.ensure_unique i 0) := sysInv_ensure_unique hs i 0
  rw [Sys.pop_front]
  split
  next r b heq =>
    split
    next d hd =>
      split
      next d2 hd2 =>
        exact sysInv_mk_set hs1 (inv_pop_front (sysInv_dataAt hs1 hd) hd2) _
      next => exact hs1
    next => exact hs1
  next => exact hs1

theorem sysInv_remove [LinearOrder T] {s : Sys T P} (hs : SysInv s)
    (i : Nat) (k : T) : SysInv (resState (s.remove i k)) := by
  have hs1 : SysInv (s.ensure_unique i 0) := sysInv_ensure_unique hs i 0
  rw [Sys.remove]
  split
  next r0 b heq =>
    split
    next d0 hd0 =>
      split
      · exact hs
      next occ hocc =>
        simp only []
        split
        next dr hdr =>
          have hr0 : r0 < s.heap.length := getElem_of_getElem?_some hd0
          have hdr2 : dr = d0 := by
            rw [ensure_unique_dataAt s i 0 r0 hr0, hd0] at hdr
            injection hdr with h2
            exact h2.symm
          have hfind : findTrack dr.tracks k = some occ := by
            rw [hdr2]
            exact hocc
          exact sysInv_mk_set hs1
            (inv_removeAll (sysInv_dataAt hs1 hdr) hfind) _
        next => exact hs1
    next => exact hs
  next => exact hs

theorem sysInv_clear [LinearOrder T] {s : Sys T P} (hs : SysInv s)
    (i : Nat) : SysInv (resState (s.clear i)) := by
  rw [Sys.clear]
  split
  next h heq =>
    exact sysInv_mk_append hs (fun x hx => by
      rw [List.mem_singleton.mp hx]
      exact dataInv_empty) _
  next => exact hs

theorem sysInv_paramsWrite [LinearOrder T] {s : Sys T P} (hs : SysInv s)
    (i : Nat) (it : Nat × Nat) (v : P) :
    SysInv (resState (s.paramsWrite i it v)) := by
  have hs1 : SysInv (s.ensure_unique i 0) := sysInv_ensure_unique hs i 0
  rw [Sys.paramsWrite]
  split
  next r0 b heq =>
    simp only []
    split
    next h hh =>
      split
      next d hd =>
        exact sysInv_mk_set hs1 (inv_writeParams (sysInv_dataAt hs1 hd)
          it.2 v) _
      next => exact hs1
    next => exact hs1
  next => exact hs

theorem sysInv_step [LinearOrder T] {s s2 : Sys T P} (hst : Step s s2)
    (hs : SysInv s) : SysInv s2 := by
  cases hst with
  | newPlaylist => exact sysInv_newPlaylist hs
  | copyFrom i => exact sysInv_copyFrom hs i
  | assignFrom i j => exact sysInv_assignFrom hs i j
  | moveFrom i => exact sysInv_moveFrom hs i
  | push_back i t p fp => exact sysInv_push_back_f hs i t p fp
  | pop_front i => exact sysInv_pop_front hs i
  | remove i k => exact sysInv_remove hs i k
  | clear i => exact sysInv_clear hs i
  | paramsWrite i it v => exact sysInv_paramsWrite hs i it v

/-- Every interior of a system reachable through public operations
satisfies the structural invariant. -/
theorem reachable_sysInv [LinearOrder T] {s : Sys T P}
    (hr : Reachable s) : SysInv s := by
  induction hr with
  | init =>
    intro d hd
    cases hd
  | step hr hst ih => exact sysInv_step hst ih

/-- Claim C9: after every public operation that returns normally (the
reachable states), for every track entry of any handle, the count
returned by pay at the sorted position of that key equals the number
of play nodes in the queue whose track is that key. -/
theorem pay_count_matches_play_multiplicity [LinearOrder T]
    {s : Sys T P} (hr : Reachable s) (i : Nat)
    {d : playlistData T P} (hd : s.handleData i = some d) :
    ∀ e ∈ sortedView d,
      e.2 = (d.play_queue.filter
        (fun n => decide (n.track = e.1))).length := by
  obtain ⟨r, b, hh, hdr⟩ := handleData_inv s hd
  have hinv : DataInv d := sysInv_dataAt (reachable_sysInv hr) hdr
  intro e he
  rw [sortedView] at he
  obtain ⟨e0, he0, hfe⟩ := List.mem_map.mp he
  rw [← hfe]
  dsimp only
  rw [hinv.occ_eq e0 he0, List.length_map]

/-- The concrete system c9Sys is reachable by public operations. -/
theorem c9Sys_reachable : Reachable c9Sys :=
  Reachable.step (Reachable.step (Reachable.step (Reachable.step
    Reachable.init (Step.newPlaylist Sys.empty))
      (Step.push_back _ 0 1 5 .noFail))
      (Step.push_back _ 0 1 6 .noFail))
      (Step.push_back _ 0 2 7 .noFail)

/-- Witness for claim C9 at the concrete reachable system c9Sys and
its sorted entry for track 1, played twice. -/
theorem pay_count_matches_play_multiplicity_witness :
    ((1, 2) : Nat × Nat) ∈ sortedView c9Interior ∧
    (2 : Nat) = (c9Interior.play_queue.filter
      (fun n => decide (n.track = (1 : Nat)))).length :=
  ⟨by decide, pay_count_matches_play_multiplicity c9Sys_reachable 0
    (by decide) (1, 2) (by decide)⟩

/-- Claim C10: after every public operation that returns normally, the
occurrence list of every track entry holds exactly the ids of the
plays of that track in queue order: push_back appends at the end,
removals delete without reordering, and the deep copy rebuilds the
lists in queue order. -/
theorem occurrence_lists_follow_queue_order [LinearOrder T]
    {s : Sys T P} (hr : Reachable s) (i : Nat)
    {d : playlistData T P} (hd : s.handleData i = some d) :
    ∀ e ∈ d.tracks,
      e.2 = (d.play_queue.filter
        (fun n => decide (n.track = e.1))).map playNode.id := by
  obtain ⟨r, b, hh, hdr⟩ := handleData_inv s hd
  have hinv : DataInv d := sysInv_dataAt (reachable_sysInv hr) hdr
  exact hinv.occ_eq

/-- Witness for claim C10 at the concrete reachable system c9Sys and
its track-1 entry, whose occurrence list holds the two play ids in
queue order. -/
theorem occurrence_lists_follow_queue_order_witness :
    ((1 : Nat), [0, 1]) ∈ c9Interior.tracks ∧
    [0, 1] = (c9Interior.play_queue.filter
      (fun n => decide (n.track = (1 : Nat)))).map playNode.id :=
  ⟨by decide, occurrence_lists_follow_queue_order c9Sys_reachable 0
    (by decide) (1, [0, 1]) (by decide)⟩

end Pleylist

